import Mathlib

/-!
Verification development for the searxng corporate-events analyzer.

The Python sources (app.py, server.py, searxng_analyzer.py) are shallowly
embedded below:

* `Py` — a model of the Python values the normalization helpers receive
  (JSON-decodable scalars, lists and dicts) together with a model of
  `json.loads` restricted to the JSON subset those helpers exchange
  (null/true/false, integers, strings with the basic escapes, arrays,
  objects; floats and \u escapes are outside the modelled subset, so a
  string using them is simply not accepted by the modelled decoder).
* `App` — the normalization helpers and the gap-analysis engine of app.py.
* `Server` — the independently coded gap-analysis of server.py.
* `Analyzer` — the per-event normalization of `generate_corporate_events`
  and the enrichment merge of `enrich_counterparties_with_individuals`
  from searxng_analyzer.py.

Python exceptions that escape a function are modelled with `Except Unit`;
exceptions swallowed by a bare `except:` are caught inside the definitions,
mirroring the source's try/except placement.
-/

set_option maxRecDepth 4000

namespace Py

/-- A Python value as handled by the normalization helpers: the JSON-decodable
shapes plus `pyNone` for Python `None`. -/
inductive PyVal where
  | pyNone : PyVal
  | pyBool : Bool → PyVal
  | pyInt : Int → PyVal
  | pyStr : String → PyVal
  | pyList : List PyVal → PyVal
  | pyDict : List (String × PyVal) → PyVal

open PyVal

/-- Python truthiness (`bool(x)`) for the modelled values: `None`, `False`,
`0`, `""`, `[]` and the empty dict are falsy. -/
def pyTruthy : PyVal → Bool
  | pyNone => false
  | pyBool b => b
  | pyInt n => n != 0
  | pyStr s => s ≠ ""
  | pyList xs => ¬ xs.isEmpty
  | pyDict kvs => ¬ kvs.isEmpty

/-- Whether the value is a Python `str` (`isinstance(x, str)`). -/
def isPyStr : PyVal → Bool
  | pyStr _ => true
  | _ => false

/-- First value stored under a key, or `pyNone`; Python dicts have unique keys,
so first-match lookup on the association list models `d[k]`. -/
def dictFind (kvs : List (String × PyVal)) (k : String) : PyVal :=
  match kvs.find? (fun p => p.1 = k) with
  | some p => p.2
  | none => pyNone

/-- Whether the dict has the key (`k in d`). -/
def dictHas (kvs : List (String × PyVal)) (k : String) : Bool :=
  kvs.any (fun p => p.1 = k)

/-- Remove the (unique) binding of a key, as `d.pop(k)` does. -/
def dictRemove (kvs : List (String × PyVal)) (k : String) : List (String × PyVal) :=
  match kvs with
  | [] => []
  | p :: rest => if p.1 = k then rest else p :: dictRemove rest k

/-- `d[k] = v`: replace the value in place when the key exists (Python keeps
the key's original position), otherwise append the new binding at the end
(insertion order). -/
def dictSet (kvs : List (String × PyVal)) (k : String) (v : PyVal) : List (String × PyVal) :=
  match kvs with
  | [] => [(k, v)]
  | p :: rest => if p.1 = k then (k, v) :: rest else p :: dictSet rest k v

/-! ### A model of `json.loads`

`json.loads` is external library code; the decoder below models it on the
JSON subset exchanged by the repository's helpers.  The recursion is
structural on a fuel counter so every definition stays executable. -/

/-- JSON inter-token whitespace (space, tab, newline, carriage return). -/
def jsonWs (c : Char) : Bool :=
  c = ' ' || c = '\t' || c = '\n' || c = '\r'

/-- Drop leading JSON whitespace. -/
def dropWs : List Char → List Char
  | c :: cs => if jsonWs c then dropWs cs else c :: cs
  | [] => []

/-- Decode the body of a JSON string after the opening quote, handling the
single-character escapes; yields the decoded characters and the remainder
after the closing quote. -/
def strBody : List Char → Option (List Char × List Char)
  | [] => none
  | '"' :: cs => some ([], cs)
  | '\\' :: e :: cs =>
    let dec : Option Char :=
      if e = '"' then some '"'
      else if e = '\\' then some '\\'
      else if e = '/' then some '/'
      else if e = 'n' then some '\n'
      else if e = 't' then some '\t'
      else if e = 'r' then some '\r'
      else if e = 'b' then some (Char.ofNat 8)
      else if e = 'f' then some (Char.ofNat 12)
      else none
    match dec with
    | some ch => (strBody cs).map (fun p => (ch :: p.1, p.2))
    | none => none
  | '\\' :: [] => none
  | c :: cs =>
    if c.toNat < 32 then none
    else (strBody cs).map (fun p => (c :: p.1, p.2))

/-- Numeric value of a run of decimal digits. -/
def digitsVal (ds : List Char) : Nat :=
  ds.foldl (fun acc c => acc * 10 + (c.toNat - 48)) 0

/-- Decode a JSON integer at the head of the input (sign, digits, no leading
zeros); a following fraction or exponent is outside the modelled subset. -/
def intToken (cs : List Char) : Option (Int × List Char) :=
  let (neg, cs1) : Bool × List Char :=
    match cs with
    | '-' :: r => (true, r)
    | _ => (false, cs)
  let ds := cs1.takeWhile Char.isDigit
  let rest := cs1.dropWhile Char.isDigit
  if ds.isEmpty then none
  else if ds.length > 1 && ds.headD ' ' = '0' then none
  else
    match rest with
    | '.' :: _ => none
    | 'e' :: _ => none
    | 'E' :: _ => none
    | _ => some ((if neg then -1 else 1) * (digitsVal ds : Int), rest)

/-- Decoder modes: a single value, the elements of an array after its first
item is due, or the members of an object after its first member is due. -/
inductive DecMode where
  | one : DecMode
  | arrItems : List PyVal → DecMode
  | objItems : List (String × PyVal) → DecMode

/-- The fuelled JSON decoder.  In mode `one` it decodes a single value; the
array/object modes hold the items decoded so far.  Every recursive call
decreases the fuel, so the recursion is structural. -/
def decodeF : Nat → DecMode → List Char → Option (PyVal × List Char)
  | 0, _, _ => none
  | fuel + 1, DecMode.one, cs0 =>
    match dropWs cs0 with
    | [] => none
    | 'n' :: 'u' :: 'l' :: 'l' :: r => some (pyNone, r)
    | 't' :: 'r' :: 'u' :: 'e' :: r => some (pyBool true, r)
    | 'f' :: 'a' :: 'l' :: 's' :: 'e' :: r => some (pyBool false, r)
    | '"' :: r => (strBody r).map (fun p => (pyStr (String.mk p.1), p.2))
    | '[' :: r =>
      (match dropWs r with
       | ']' :: r2 => some (pyList [], r2)
       | r1 => decodeF fuel (DecMode.arrItems []) r1)
    | '{' :: r =>
      (match dropWs r with
       | '}' :: r2 => some (pyDict [], r2)
       | r1 => decodeF fuel (DecMode.objItems []) r1)
    | cs => (intToken cs).map (fun p => (pyInt p.1, p.2))
  | fuel + 1, DecMode.arrItems acc, cs0 =>
    match decodeF fuel DecMode.one cs0 with
    | none => none
    | some (v, r) =>
      match dropWs r with
      | ',' :: r2 => decodeF fuel (DecMode.arrItems (acc ++ [v])) r2
      | ']' :: r2 => some (pyList (acc ++ [v]), r2)
      | _ => none
  | fuel + 1, DecMode.objItems acc, cs0 =>
    match dropWs cs0 with
    | '"' :: r =>
      (match strBody r with
       | none => none
       | some (ks, r1) =>
         match dropWs r1 with
         | ':' :: r2 =>
           (match decodeF fuel DecMode.one r2 with
            | none => none
            | some (v, r3) =>
              let acc2 := dictSet acc (String.mk ks) v
              match dropWs r3 with
              | ',' :: r4 => decodeF fuel (DecMode.objItems acc2) r4
              | '}' :: r4 => some (pyDict acc2, r4)
              | _ => none)
         | _ => none)
    | _ => none

/-- The model of `json.loads`: decode one value and require only whitespace
after it.  The fuel `2 * length + 4` dominates the decoder's call depth. -/
def pyLoads (s : String) : Option PyVal :=
  match decodeF (2 * s.length + 4) DecMode.one s.toList with
  | some (v, r) => if (dropWs r).isEmpty then some v else none
  | none => none

end Py

/-! ## Models of the Python `str` methods

Each is structural on the character list, so concrete runs reduce inside the
kernel (`rfl`/`decide`); they model the corresponding method on the ASCII
strings the repository handles. -/

namespace Str

/-- `s.lower()`. -/
def pyLower (s : String) : String := String.mk (s.toList.map Char.toLower)

/-- `s.strip()`: drop leading and trailing whitespace. -/
def pyStrip (s : String) : String :=
  String.mk (((s.toList.dropWhile Char.isWhitespace).reverse.dropWhile Char.isWhitespace).reverse)

/-- `s.split()`: whitespace-delimited words, runs collapsed, no empties. -/
def splitWsAux : List Char → List Char → List String
  | [], acc => if acc.isEmpty then [] else [String.mk acc.reverse]
  | c :: cs, acc =>
    if c.isWhitespace then
      (if acc.isEmpty then splitWsAux cs [] else String.mk acc.reverse :: splitWsAux cs [])
    else splitWsAux cs (c :: acc)

/-- `s.split()` on a string. -/
def pySplitWs (s : String) : List String := splitWsAux s.toList []

/-- `s.split(sep)` for a one-character separator, keeping empty pieces. -/
def splitCharAux (sep : Char) : List Char → List (List Char)
  | [] => [[]]
  | c :: rest =>
    match splitCharAux sep rest with
    | [] => [[]]
    | w :: ws => if c = sep then [] :: w :: ws else (c :: w) :: ws

/-- `s.split(sep)` on a string. -/
def splitOnChar (sep : Char) (s : String) : List String :=
  (splitCharAux sep s.toList).map String.mk

/-- Case-sensitive: the first list occurs at the head of the second. -/
def startsEq : List Char → List Char → Bool
  | [], _ => true
  | _ :: _, [] => false
  | n :: ns, h :: hs => (n = h) && startsEq ns hs

/-- `s.startswith(pre)`. -/
def startsWithStr (pre s : String) : Bool := startsEq pre.toList s.toList

/-- Case-sensitive substring occurrence (Python's `needle in hay` on `str`). -/
def hasSub : List Char → List Char → Bool
  | ns, [] => ns.isEmpty
  | ns, h :: hs => startsEq ns (h :: hs) || hasSub ns hs

/-- `needle in hay` for strings. -/
def strHasSub (needle hay : String) : Bool := hasSub needle.toList hay.toList

/-- `c in s` for a single character. -/
def hasChar (s : String) (c : Char) : Bool := s.toList.any (fun d => d = c)

end Str

/-! ## app.py — normalization helpers (lines 129-189) -/

namespace App

/-- The Python `in` operator as used on a management entry `m`: key lookup on
a dict, substring test on a string, membership on a list; `TypeError` on the
remaining shapes. -/
def pyHasItem (m : Py.PyVal) (k : String) : Except Unit Bool :=
  match m with
  | .pyDict kvs => .ok (Py.dictHas kvs k)
  | .pyStr s => .ok (Str.strHasSub k s)
  | .pyList xs => .ok (xs.any (fun x => match x with | .pyStr t => t = k | _ => false))
  | _ => .error ()

/-- First half of the loop body of `normalize_top_management`:
`if "role" in m and "position" not in m: m["position"] = m.pop("role")`.
Only a dict survives the mutation; a string or list reaching `m.pop`
raises (`AttributeError`/`TypeError`), modelled as `.error`. -/
def mgmtStepRole (m : Py.PyVal) : Except Unit Py.PyVal := do
  let hasRole ← pyHasItem m ("role")
  if hasRole then
    let hasPos ← pyHasItem m ("position")
    if hasPos then pure m
    else
      match m with
      | .pyDict kvs =>
        pure (.pyDict (Py.dictSet (Py.dictRemove kvs ("role")) ("position") (Py.dictFind kvs ("role"))))
      | _ => throw ()
  else pure m

/-- Second half of the loop body:
`if "status" not in m: m["status"] = "Current"`; item assignment on a
non-dict raises `TypeError`. -/
def mgmtStepStatus (m : Py.PyVal) : Except Unit Py.PyVal := do
  let hasStatus ← pyHasItem m ("status")
  if hasStatus then pure m
  else
    match m with
    | .pyDict kvs => pure (.pyDict (Py.dictSet kvs ("status") (.pyStr "Current")))
    | _ => throw ()

/-- The whole loop body applied to one management entry. -/
def mgmtEntry (m : Py.PyVal) : Except Unit Py.PyVal :=
  mgmtStepRole m >>= mgmtStepStatus

/-- The loop body restricted to a dict entry, as a pure association-list
transformation: rename the legacy `role` key to `position` when `position`
is absent, then default a missing `status` to `"Current"`. -/
def mgmtDict (kvs : List (String × Py.PyVal)) : List (String × Py.PyVal) :=
  let m1 :=
    if Py.dictHas kvs ("role") && ¬ Py.dictHas kvs ("position") then
      Py.dictSet (Py.dictRemove kvs ("role")) ("position") (Py.dictFind kvs ("role"))
    else kvs
  if ¬ Py.dictHas m1 ("status") then Py.dictSet m1 ("status") (.pyStr "Current") else m1

/-- The `try` block of `normalize_top_management`: decode a string input
(`json.loads` raising on failure), run the loop body over a list, return
the mutated list; a non-list value falls through to `return []`. -/
def tmTryBody (data : Py.PyVal) : Except Unit Py.PyVal := do
  let mgmt ←
    match data with
    | .pyStr s =>
      (match Py.pyLoads s with
       | some v => pure v
       | none => throw ())
    | _ => pure data
  match mgmt with
  | .pyList ms => do
    let ms2 ← ms.mapM mgmtEntry
    pure (.pyList ms2)
  | _ => pure (.pyList [])

/-- `normalize_top_management` (app.py 129-144).  The body's `try` swallows
every exception into `[]`; a falsy input or a non-list parse also yields
`[]`. -/
def normalize_top_management (data : Py.PyVal) : Py.PyVal :=
  if ¬ Py.pyTruthy data then .pyList []
  else
    match tmTryBody data with
    | .ok v => v
    | .error _ => .pyList []

/-! ### The legacy plain-text event format of `normalize_corporate_events`

The regex
`- Event Description: (.*?)(?=\s*(?:Date:|Type:|Value:| - Event Description:)|$)`
(DOTALL, IGNORECASE) is modelled by a character-level scan: a match starts at
the case-insensitive literal, and the lazy capture ends at the first position
whose remainder satisfies the lookahead (whitespace then one of the
alternatives, or end of input, where `$` also matches before a final
newline). -/

/-- Case-insensitive: the lowered needle occurs at the head of the input. -/
def startsCI : List Char → List Char → Bool
  | _, [] => true
  | [], _ :: _ => false
  | h :: hs, n :: ns => (h.toLower = n) && startsCI hs ns

/-- `$` of the pattern: end of input, or just before a final newline. -/
def dollarAt (cs : List Char) : Bool := cs = [] ∨ cs = ['\n']

/-- `\s*` then one of the literal alternatives, with the regex backtracking
over how much whitespace `\s*` takes. -/
def wsThenAny (lits : List (List Char)) : List Char → Bool
  | [] => false
  | c :: cs => lits.any (fun l => startsCI (c :: cs) l) || (c.isWhitespace && wsThenAny lits cs)

/-- The literal that opens a match (lowered; note the trailing space). -/
def descLit : List Char := ("- event description: ").toList

/-- Lookahead of the findall pattern. -/
def descStop (cs : List Char) : Bool :=
  wsThenAny [("date:").toList, ("type:").toList, ("value:").toList,
    (" - event description:").toList] cs || dollarAt cs

/-- Lookahead of the per-event `re.search` block pattern
`- Event Description: .*?(?=\s*- Event Description:|$)`. -/
def blockStop (cs : List Char) : Bool :=
  wsThenAny [("- event description:").toList] cs || dollarAt cs

/-- Lazy capture: the shortest prefix whose remainder satisfies `stop`
(the empty remainder always stops, as `$` matches there). -/
def captureUntil (stop : List Char → Bool) : List Char → List Char × List Char
  | [] => ([], [])
  | c :: cs =>
    if stop (c :: cs) then ([], c :: cs)
    else
      let p := captureUntil stop cs
      (c :: p.1, p.2)

/-- All captures of the findall pattern, scanning left to right without
overlap (fuel: one unit per character suffices, every step consumes input). -/
def findAllDescs : Nat → List Char → List String
  | 0, _ => []
  | _ + 1, [] => []
  | fuel + 1, c :: cs =>
    if startsCI (c :: cs) descLit then
      let p := captureUntil descStop ((c :: cs).drop descLit.length)
      String.mk p.1 :: findAllDescs fuel p.2
    else findAllDescs fuel cs

/-- `group(0)` of the first match of the block pattern (the source recomputes
this same first block for every captured description). -/
def findFirstBlock : Nat → List Char → Option (List Char)
  | 0, _ => none
  | _ + 1, [] => none
  | fuel + 1, c :: cs =>
    if startsCI (c :: cs) descLit then
      some ((c :: cs).take descLit.length ++ (captureUntil blockStop ((c :: cs).drop descLit.length)).1)
    else findFirstBlock fuel cs

/-- One line of the block: strip it, and when it is a `date:`/`type:`/`value:`
line (case-insensitively), store the stripped remainder under the lowered
key. -/
def legacyLineKV (acc : List (String × Py.PyVal)) (line : String) : List (String × Py.PyVal) :=
  let l := Str.pyStrip line
  let low := Str.pyLower l
  if Str.hasChar l ':' &&
      (Str.startsWithStr ("date:") low || Str.startsWithStr ("type:") low ||
        Str.startsWithStr ("value:") low) then
    let key := Str.pyLower (Str.pyStrip (String.mk (l.toList.takeWhile (fun c => c ≠ ':'))))
    let v := Str.pyStrip (String.mk ((l.toList.dropWhile (fun c => c ≠ ':')).drop 1))
    if key = "date" then Py.dictSet acc ("date") (.pyStr v)
    else if key = "type" then Py.dictSet acc ("type") (.pyStr v)
    else if key = "value" then Py.dictSet acc ("value") (.pyStr v)
    else acc
  else acc

/-- The event dict built from one captured description and the first block. -/
def mkLegacyEvent (desc : String) (blk : List Char) : Py.PyVal :=
  .pyDict ((Str.splitOnChar '\n' (String.mk blk)).foldl legacyLineKV
    [(("description"), .pyStr (Str.pyStrip desc))])

/-- The plain-text fallback of `normalize_corporate_events`: one event per
captured description whose strip is non-empty, each completed from the first
block's `date:`/`type:`/`value:` lines. -/
def legacyEvents (s : String) : List Py.PyVal :=
  let cs := s.toList
  let descs := findAllDescs (cs.length + 1) cs
  match findFirstBlock (cs.length + 1) cs with
  | none => []
  | some blk => (descs.filter (fun d => Str.pyStrip d ≠ "")).map (fun d => mkLegacyEvent d blk)

/-- `normalize_corporate_events` (app.py 146-189).  A falsy input returns
`[]`; a string that decodes to a JSON list is returned as parsed; any other
string takes the legacy plain-text path; a truthy non-string reaches
`re.findall`, whose `TypeError` is *not* inside the `try` and so escapes
(`.error`). -/
def normalize_corporate_events (raw_text : Py.PyVal) : Except Unit Py.PyVal :=
  if ¬ Py.pyTruthy raw_text then .ok (.pyList [])
  else
    match raw_text with
    | .pyStr s =>
      (match Py.pyLoads s with
       | some (.pyList l) => .ok (.pyList l)
       | _ => .ok (.pyList (legacyEvents s)))
    | _ => .error ()

end App

/-! ## Gap analysis — app.py (lines 871-916) and server.py (lines 739-787)

An event reaching the matching loops is a dict of string fields; only
`Event (short)` / `event_short` / `description` are read. -/

/-- A string-valued event dict, with `d.get(k, default)` lookup. -/
abbrev EventD := List (String × String)

/-- `d.get(k, dflt)` on a string-valued dict. -/
def dGet (d : EventD) (k dflt : String) : String :=
  match d.find? (fun p => p.1 = k) with
  | some p => p.2
  | none => dflt

namespace App

/-- `normalize_text` (app.py): lower-case then strip. -/
def normalize_text (text : String) : String := Str.pyStrip (Str.pyLower text)

/-- The fixed stop-word list shared by both implementations. -/
def stop_words : Finset String :=
  {"the", "a", "an", "and", "or", "to", "of", "in", "for", "with", "by", "from", "its", "as"}

/-- `extract_keywords` (app.py): the set of whitespace-delimited words of the
normalized text, minus the stop words; empty input gives the empty set. -/
def extract_keywords (text : String) : Finset String :=
  if text = "" then ∅
  else (Str.pySplitWs (normalize_text text)).toFinset \ stop_words

/-- `events_match` (app.py): keyword overlap `|A ∩ B| / max(|A|, |B|) ≥ 0.4`
(threshold 0.4 = 2/5, compared exactly over `ℚ`), false when either keyword
set is empty. -/
def events_match (ai_event db_event : EventD) : Bool :=
  let ai_name := dGet ai_event ("Event (short)") (dGet ai_event ("event_short") (""))
  let db_name := dGet db_event ("description") ("")
  let ai_keywords := extract_keywords ai_name
  let db_keywords := extract_keywords db_name
  if ai_keywords = ∅ ∨ db_keywords = ∅ then false
  else
    let overlap := (ai_keywords ∩ db_keywords).card
    let max_len := max ai_keywords.card db_keywords.card
    let similarity : ℚ := if max_len > 0 then (overlap : ℚ) / (max_len : ℚ) else 0
    decide (similarity ≥ 2 / 5)

/-- The Streamlit comparison loop: each AI event is appended to
`matched_events` at its first database match, else to `missing_events`;
result `(matched_events, missing_events)`. -/
def gapAnalysis : List EventD → List EventD → List EventD × List EventD
  | [], _ => ([], [])
  | a :: rest, db =>
    let p := gapAnalysis rest db
    if db.any (fun d => events_match a d) then (a :: p.1, p.2) else (p.1, a :: p.2)

end App

namespace Server

/-- `normalize_text` (server.py): `(text or "").lower().strip()`. -/
def normalize_text (text : String) : String :=
  Str.pyStrip (Str.pyLower (if text = "" then "" else text))

/-- The same fixed stop-word set, written out again in server.py. -/
def stop_words : Finset String :=
  {"the", "a", "an", "and", "or", "to", "of", "in", "for", "with", "by", "from", "its", "as"}

/-- `extract_keywords` (server.py). -/
def extract_keywords (text : String) : Finset String :=
  if text = "" then ∅
  else (Str.pySplitWs (normalize_text text)).toFinset \ stop_words

/-- `events_match` (server.py); same logic as the app.py copy. -/
def events_match (ai_event db_event : EventD) : Bool :=
  let ai_name := dGet ai_event ("Event (short)") (dGet ai_event ("event_short") (""))
  let db_name := dGet db_event ("description") ("")
  let ai_keywords := extract_keywords ai_name
  let db_keywords := extract_keywords db_name
  if ai_keywords = ∅ ∨ db_keywords = ∅ then false
  else
    let overlap := (ai_keywords ∩ db_keywords).card
    let max_len := max ai_keywords.card db_keywords.card
    let similarity : ℚ := if max_len > 0 then (overlap : ℚ) / (max_len : ℚ) else 0
    decide (similarity ≥ 2 / 5)

/-- The FastAPI per-event classification (`any(events_match(ev, db_ev) ...)`). -/
def classifyLoop : List EventD → List EventD → List EventD × List EventD
  | [], _ => ([], [])
  | a :: rest, db =>
    let p := classifyLoop rest db
    if db.any (fun d => events_match a d) then (a :: p.1, p.2) else (p.1, a :: p.2)

/-- The FastAPI gap analysis: the loop runs only when both lists are truthy;
otherwise `missing_events = ai_events` and `matched_events = []`. -/
def gapAnalysis (ai_events db_events : List EventD) : List EventD × List EventD :=
  if ¬ ai_events.isEmpty ∧ ¬ db_events.isEmpty then classifyLoop ai_events db_events
  else ([], ai_events)

end Server

/-! ## searxng_analyzer.py — event normalization and enrichment merge

`generate_corporate_events` (lines 1530-1700) decodes the LLM reply into a
list of raw event objects and normalizes each; the raw structures below hold
exactly the fields that normalization reads, each `Option` modelling key
absence under `.get`.  `enrich_counterparties_with_individuals` (lines
695-855) merges a per-event enrichment reply into the normalized
counterparties. -/

namespace Analyzer

/-- A raw individual from a reply (`ind.get(...)` fields). -/
structure RawIndividual where
  name : Option String
  title : Option String
  linkedin_url : Option String
deriving DecidableEq, Repr, Inhabited

/-- A raw counterparty from the extraction reply. -/
structure RawCounterparty where
  company_name : Option String
  type_id : Option Int
  type : Option String
  role_description : Option String
  company_linkedin_url : Option String
  press_release_url : Option String
  individuals : Option (List RawIndividual)
deriving DecidableEq, Repr, Inhabited

/-- A raw advisor entry from the extraction reply. -/
structure RawAdvisor where
  advisor_name : Option String
  advisor_type : Option String
  advised_party : Option String
  announcement_url : Option String
deriving DecidableEq, Repr, Inhabited

/-- A raw event object of the decoded LLM reply; `date`, `event_type`,
`event` and `value` are the legacy fallback keys read by the nested
`.get` calls. -/
structure RawEvent where
  announcement_date : Option String
  date : Option String
  closed_date : Option String
  event_short : Option String
  eventLegacy : Option String
  description : Option String
  deal_type : Option String
  event_type : Option String
  deal_status : Option String
  value_usd : Option String
  valueLegacy : Option String
  source_url : Option String
  counterparties : Option (List RawCounterparty)
  advisors : Option (List RawAdvisor)
deriving DecidableEq, Repr, Inhabited

/-- A normalized individual (`name`/`title`/`linkedin_url`, stripped). -/
structure Individual where
  name : String
  title : String
  linkedin_url : String
deriving DecidableEq, Repr, Inhabited

/-- A normalized counterparty as built by `generate_corporate_events`. -/
structure Counterparty where
  company_name : String
  type_id : Int
  type : String
  role_description : String
  company_linkedin_url : String
  press_release_url : String
  individuals : List Individual
deriving DecidableEq, Repr, Inhabited

/-- A normalized advisor. -/
structure Advisor where
  advisor_name : String
  advisor_type : String
  advised_party : String
  announcement_url : String
deriving DecidableEq, Repr, Inhabited

/-- A normalized event dict; the Lean field names stand for the output keys
`Announcement Date`, `Closed Date`, `Date`, `Event (short)`, `Description`,
`Deal Type`, `Deal Status`, `Event type`, `Event value (USD)`, `Source URL`,
`counterparties`, `advisors`. -/
structure NormEvent where
  announcementDate : String
  closedDate : String
  date : String
  eventShort : String
  description : String
  dealType : String
  dealStatus : String
  eventType : String
  eventValueUSD : String
  sourceUrl : String
  counterparties : List Counterparty
  advisors : List Advisor
deriving DecidableEq, Repr, Inhabited

/-- `str(ind.get(k, "")).strip()` on the three individual fields. -/
def normIndividual (ind : RawIndividual) : Individual :=
  { name := Str.pyStrip (ind.name.getD ("")),
    title := Str.pyStrip (ind.title.getD ("")),
    linkedin_url := Str.pyStrip (ind.linkedin_url.getD ("")) }

/-- The counterparty normalization of `generate_corporate_events` (lines
1554-1573): the reply's `type_id` is copied through `int(...)` with default
`0`, and the free-text `type` label is kept, default `"Unknown"`; there is
no lookup of the label in a role table. -/
def normCounterparty (cp : RawCounterparty) : Counterparty :=
  { company_name := Str.pyStrip (cp.company_name.getD ("")),
    type_id := cp.type_id.getD 0,
    type := Str.pyStrip (cp.type.getD ("Unknown")),
    role_description := Str.pyStrip (cp.role_description.getD ("")),
    company_linkedin_url := Str.pyStrip (cp.company_linkedin_url.getD ("")),
    press_release_url := Str.pyStrip (cp.press_release_url.getD ("")),
    individuals := (cp.individuals.getD []).map normIndividual }

/-- Advisor normalization. -/
def normAdvisor (adv : RawAdvisor) : Advisor :=
  { advisor_name := Str.pyStrip (adv.advisor_name.getD ("")),
    advisor_type := Str.pyStrip (adv.advisor_type.getD ("")),
    advised_party := Str.pyStrip (adv.advised_party.getD ("")),
    announcement_url := Str.pyStrip (adv.announcement_url.getD ("")) }

/-- The per-event normalization of `generate_corporate_events` (lines
1555-1627): nested `.get` fallbacks, stripping, the display date, and the
Deal Status defaulting (`Completed` when a closed date is present and no
status was supplied, else `Unknown`; a supplied status is passed through). -/
def normalizeEvent (e : RawEvent) : NormEvent :=
  let counterparties := (e.counterparties.getD []).map normCounterparty
  let announcement_date := Str.pyStrip ((e.announcement_date <|> e.date).getD (""))
  let closed_date := Str.pyStrip ((e.closed_date).getD (""))
  let display_date0 := if announcement_date ≠ "" then announcement_date else closed_date
  let display_date := if display_date0 = "" then "Unknown" else display_date0
  let deal_type := Str.pyStrip ((e.deal_type <|> e.event_type).getD ("Unknown"))
  let deal_status0 := Str.pyStrip ((e.deal_status).getD (""))
  let deal_status :=
    if deal_status0 = "" ∧ closed_date ≠ "" then "Completed"
    else if deal_status0 = "" then "Unknown"
    else deal_status0
  let advisors := (e.advisors.getD []).map normAdvisor
  { announcementDate := announcement_date,
    closedDate := closed_date,
    date := display_date,
    eventShort := Str.pyStrip ((e.event_short <|> e.eventLegacy).getD ("Unknown event")),
    description := Str.pyStrip ((e.description).getD ("")),
    dealType := deal_type,
    dealStatus := deal_status,
    eventType := deal_type,
    eventValueUSD := Str.pyStrip ((e.value_usd <|> e.valueLegacy).getD ("Undisclosed")),
    sourceUrl := Str.pyStrip ((e.source_url).getD ("")),
    counterparties := counterparties,
    advisors := advisors }

/-- The Deal Status vocabulary named by the specification. -/
def dealStatusVocab : List String :=
  ["Completed", "In Market", "Not yet launched", "Strategic Review", "Deal Prep",
   "In Exclusivity", "Unknown"]

/-- One counterparty record of an enrichment reply (`enrich_cp.get(...)`). -/
structure EnrichCP where
  company : Option String
  press_release_url : Option String
  company_linkedin_url : Option String
  individuals : Option (List RawIndividual)
deriving DecidableEq, Repr, Inhabited

/-- The fuzzy name test of the enrichment merge (line 818-820):
`enrich_company in cp_name or cp_name in enrich_company or
any(word in cp_name for word in enrich_company.split() if len(word) > 3)`,
on lower-cased names; note the third test is a substring test of each long
token of the enrichment name inside the counterparty name. -/
def cpMatch (enrich_company : String) (cp : Counterparty) : Bool :=
  let cp_name := Str.pyLower cp.company_name
  Str.strHasSub enrich_company cp_name || Str.strHasSub cp_name enrich_company ||
    (Str.pySplitWs enrich_company).any (fun w => decide (w.length > 3) && Str.strHasSub w cp_name)

/-- The `individuals` merge loop: an enrichment individual is appended only
when its name is truthy and its lower-cased name is not already among the
(growing) list's lower-cased names. -/
def addIndividuals (cur : List Individual) (news : List RawIndividual) : List Individual :=
  news.foldl
    (fun acc ind =>
      let ind_name := ind.name.getD ("")
      if ind_name ≠ "" ∧
          ¬ acc.any (fun i => Str.pyLower i.name = Str.pyLower ind_name) then
        acc ++ [{ name := ind_name, title := ind.title.getD (""),
                  linkedin_url := ind.linkedin_url.getD ("") }]
      else acc)
    cur

/-- The body applied to the matched counterparty: the press-release and
LinkedIn URLs are filled only when currently empty, and the individuals are
merged without duplicating a lower-cased name. -/
def applyEnrich (e : EnrichCP) (cp : Counterparty) : Counterparty :=
  let enrich_url := e.press_release_url.getD ("")
  let enrich_linkedin := e.company_linkedin_url.getD ("")
  let cp1 :=
    if enrich_url ≠ "" ∧ cp.press_release_url = "" then
      { cp with press_release_url := enrich_url }
    else cp
  let cp2 :=
    if enrich_linkedin ≠ "" ∧ cp1.company_linkedin_url = "" then
      { cp1 with company_linkedin_url := enrich_linkedin }
    else cp1
  { cp2 with individuals := addIndividuals cp2.individuals (e.individuals.getD []) }

/-- One enrichment record merged into the counterparty list: the first
matching counterparty receives the update (the loop `break`s there); the
rest are untouched. -/
def mergeEnrichOne (e : EnrichCP) : List Counterparty → List Counterparty
  | [] => []
  | cp :: rest =>
    if cpMatch (Str.pyLower (e.company.getD (""))) cp then applyEnrich e cp :: rest
    else cp :: mergeEnrichOne e rest

/-- The per-event enrichment: skipped when the event has no counterparties or
none with a truthy name; a failed request or unparseable reply (`none`)
leaves the event unchanged; otherwise every reply record is merged in
order. -/
def enrichEvent (ev : NormEvent) (reply : Option (List EnrichCP)) : NormEvent :=
  if ev.counterparties.isEmpty then ev
  else if ((ev.counterparties.map (fun cp => cp.company_name)).filter (fun n => n ≠ "")).length < 1 then ev
  else
    match reply with
    | none => ev
    | some data =>
      { ev with counterparties := data.foldl (fun cps e => mergeEnrichOne e cps) ev.counterparties }

/-- The `for idx, event in enumerate(events)` loop, the reply oracle giving
each event's (parsed) enrichment reply. -/
def enrichFrom (oracle : Nat → Option (List EnrichCP)) : Nat → List NormEvent → List NormEvent
  | _, [] => []
  | i, ev :: rest => enrichEvent ev (oracle i) :: enrichFrom oracle (i + 1) rest

/-- `enrich_counterparties_with_individuals` over already-normalized events. -/
def enrich_counterparties_with_individuals (evs : List NormEvent)
    (oracle : Nat → Option (List EnrichCP)) : List NormEvent :=
  enrichFrom oracle 0 evs

/-- `generate_corporate_events` after the reply is decoded: truncate to
`max_events`, normalize each event, then run the enrichment pass. -/
def generate_corporate_events (events : List RawEvent) (max_events : Nat)
    (oracle : Nat → Option (List EnrichCP)) : List NormEvent :=
  enrich_counterparties_with_individuals ((events.take max_events).map normalizeEvent) oracle

end Analyzer

/-! ## Shared lemmas about the gap analysis -/

/-- The exact-rational similarity test against 0.4 reduces to an integer
comparison: `overlap / max_len ≥ 2/5` iff `2 * max_len ≤ 5 * overlap`. -/
theorem similarity_threshold (o m : ℕ) (hm : m > 0) :
    ((if m > 0 then (o : ℚ) / (m : ℚ) else 0) ≥ 2 / 5) ↔ 2 * m ≤ 5 * o := by
  rw [if_pos hm, ge_iff_le, div_le_div_iff₀ (by norm_num) (by exact_mod_cast hm)]
  rw [show ((o : ℚ) * 5 = ((5 * o : ℕ) : ℚ)) from by push_cast; ring,
      show ((2 : ℚ) * (m : ℚ) = ((2 * m : ℕ) : ℚ)) from by push_cast; ring]
  exact Nat.cast_le

/-- `events_match` holds exactly when both keyword sets are non-empty and the
overlap clears the 0.4 threshold. -/
theorem events_match_true_iff (a d : EventD) :
    App.events_match a d = true ↔
      (App.extract_keywords (dGet a ("Event (short)") (dGet a ("event_short") (""))) ≠ ∅ ∧
       App.extract_keywords (dGet d ("description") ("")) ≠ ∅ ∧
       2 * max (App.extract_keywords (dGet a ("Event (short)") (dGet a ("event_short") ("")))).card
           (App.extract_keywords (dGet d ("description") (""))).card ≤
         5 * ((App.extract_keywords (dGet a ("Event (short)") (dGet a ("event_short") (""))) ∩
           App.extract_keywords (dGet d ("description") (""))).card)) := by
  unfold App.events_match
  set A := App.extract_keywords (dGet a ("Event (short)") (dGet a ("event_short") (""))) with hA
  set B := App.extract_keywords (dGet d ("description") ("")) with hB
  by_cases h : A = ∅ ∨ B = ∅
  · rw [if_pos h]
    constructor
    · intro hc
      exact absurd hc Bool.false_ne_true
    · rintro ⟨h1, h2, -⟩
      rcases h with hc | hc
      · exact absurd hc h1
      · exact absurd hc h2
  · rw [if_neg h]
    obtain ⟨h1, h2⟩ := not_or.mp h
    have hmax : max A.card B.card > 0 :=
      lt_of_lt_of_le (Finset.card_pos.mpr (Finset.nonempty_iff_ne_empty.mpr h1)) (le_max_left _ _)
    rw [decide_eq_true_eq, similarity_threshold _ _ hmax]
    exact ⟨fun hle => ⟨h1, h2, hle⟩, fun hc => hc.2.2⟩

/-- The Streamlit loop computes the two filters of the any-match predicate. -/
theorem gapAnalysis_filter (ai db : List EventD) :
    App.gapAnalysis ai db =
      (ai.filter (fun a => db.any (fun d => App.events_match a d)),
       ai.filter (fun a => ! db.any (fun d => App.events_match a d))) := by
  induction ai with
  | nil => rfl
  | cons a rest ih =>
    simp only [App.gapAnalysis, ih, List.filter_cons]
    by_cases h : db.any (fun d => App.events_match a d)
    · simp [h]
    · simp [h]

/-- The two `normalize_text` copies agree (`text or ""` is the identity on
strings once the empty case is split off). -/
theorem server_normalize_text_eq (t : String) :
    Server.normalize_text t = App.normalize_text t := by
  unfold Server.normalize_text App.normalize_text
  by_cases h : t = ""
  · rw [if_pos h, h]
  · rw [if_neg h]

/-- The two `extract_keywords` copies agree. -/
theorem server_extract_keywords_eq (t : String) :
    Server.extract_keywords t = App.extract_keywords t := by
  unfold Server.extract_keywords App.extract_keywords
  rw [server_normalize_text_eq, show Server.stop_words = App.stop_words from rfl]

/-- The two `events_match` copies agree. -/
theorem server_events_match_eq (a d : EventD) :
    Server.events_match a d = App.events_match a d := by
  unfold Server.events_match App.events_match
  simp only [server_extract_keywords_eq]

/-- The FastAPI classification loop equals the Streamlit one. -/
theorem server_classifyLoop_eq (ai db : List EventD) :
    Server.classifyLoop ai db = App.gapAnalysis ai db := by
  induction ai with
  | nil => rfl
  | cons a rest ih =>
    simp only [Server.classifyLoop, App.gapAnalysis, ih, server_events_match_eq]

/-- Against an empty database, every AI event is missing. -/
theorem app_gap_empty_db (ai : List EventD) : App.gapAnalysis ai [] = ([], ai) := by
  induction ai with
  | nil => rfl
  | cons a rest ih => simp [App.gapAnalysis, ih]

/-- C1: the gap-analysis engine classifies an AI event as matched exactly when
at least one database event passes `events_match` (the partition is the pair
of filters of that predicate), and the pair "Acme acquired Widget Corp" /
"Acme buys Widget Corp Inc" is matched. -/
theorem claim_C1 :
    (∀ ai db : List EventD,
      App.gapAnalysis ai db =
        (ai.filter (fun a => db.any (fun d => App.events_match a d)),
         ai.filter (fun a => ! db.any (fun d => App.events_match a d)))) ∧
    App.events_match [(("Event (short)"), "Acme acquired Widget Corp")]
      [(("description"), "Acme buys Widget Corp Inc")] = true := by
  constructor
  · exact gapAnalysis_filter
  · rw [events_match_true_iff]
    exact ⟨by decide, by decide, by decide⟩

/-- C10: the two independently coded gap-analysis implementations agree:
`events_match` pointwise, and the (matched, missing) partition for every
pair of event lists, including the empty-database case. -/
theorem claim_C10 :
    (∀ a d : EventD, App.events_match a d = Server.events_match a d) ∧
    (∀ ai db : List EventD, App.gapAnalysis ai db = Server.gapAnalysis ai db) := by
  constructor
  · intro a d
    exact (server_events_match_eq a d).symm
  · intro ai db
    unfold Server.gapAnalysis
    rcases ai with _ | ⟨a, rest⟩
    · simp [show App.gapAnalysis [] db = ([], []) from rfl]
    · rcases db with _ | ⟨b, dbr⟩
      · simp [app_gap_empty_db]
      · rw [if_pos (by simp), server_classifyLoop_eq]

/-! ## Lemmas about the analyzer normalization -/

/-- Enrichment only touches the counterparties; Deal Status is unchanged. -/
theorem enrichEvent_dealStatus (ev : Analyzer.NormEvent) (r : Option (List Analyzer.EnrichCP)) :
    (Analyzer.enrichEvent ev r).dealStatus = ev.dealStatus := by
  unfold Analyzer.enrichEvent
  split
  · rfl
  · split
    · rfl
    · split <;> rfl

/-- Every event of the enrichment loop's output is the enrichment of an input
event under some reply. -/
theorem mem_enrichFrom (oracle : Nat → Option (List Analyzer.EnrichCP))
    {ev : Analyzer.NormEvent} :
    ∀ (evs : List Analyzer.NormEvent) (i : Nat), ev ∈ Analyzer.enrichFrom oracle i evs →
      ∃ ev0 ∈ evs, ∃ r, ev = Analyzer.enrichEvent ev0 r := by
  intro evs
  induction evs with
  | nil =>
    intro i h
    cases h
  | cons e rest ih =>
    intro i h
    rcases List.mem_cons.mp h with h | h
    · exact ⟨e, List.mem_cons_self e rest, oracle i, h⟩
    · obtain ⟨ev0, hmem, r, heq⟩ := ih (i + 1) h
      exact ⟨ev0, List.mem_cons_of_mem e hmem, r, heq⟩

/-- The normalized Deal Status is either a defaulted value from the fixed
vocabulary or the stripped reply-supplied status, passed through. -/
theorem normalizeEvent_dealStatus_cases (e : Analyzer.RawEvent) :
    (Analyzer.normalizeEvent e).dealStatus ∈ Analyzer.dealStatusVocab ∨
      (Analyzer.normalizeEvent e).dealStatus = Str.pyStrip ((e.deal_status).getD ("")) := by
  simp only [Analyzer.normalizeEvent]
  by_cases h1 : Str.pyStrip ((e.deal_status).getD ("")) = ""
  · left
    simp only [h1]
    split
    · simp [Analyzer.dealStatusVocab]
    · simp [Analyzer.dealStatusVocab]
  · right
    simp [h1]

/-- C2 (amended): a returned event's Deal Status is in the fixed vocabulary
whenever the reply's `deal_status` was absent or empty (the defaulting
branch); otherwise it is exactly the stripped reply-supplied string, passed
through without validation. -/
theorem claim_C2_amended (events : List Analyzer.RawEvent) (n : Nat)
    (oracle : Nat → Option (List Analyzer.EnrichCP)) (ev : Analyzer.NormEvent)
    (hev : ev ∈ Analyzer.generate_corporate_events events n oracle) :
    ev.dealStatus ∈ Analyzer.dealStatusVocab ∨
      ∃ e ∈ events, ev.dealStatus = Str.pyStrip ((e.deal_status).getD ("")) := by
  simp only [Analyzer.generate_corporate_events,
    Analyzer.enrich_counterparties_with_individuals] at hev
  obtain ⟨ev0, hmem, r, heq⟩ := mem_enrichFrom oracle _ 0 hev
  rw [heq, enrichEvent_dealStatus]
  rw [List.mem_map] at hmem
  obtain ⟨e, he, rfl⟩ := hmem
  have he2 : e ∈ events := List.take_subset n events he
  rcases normalizeEvent_dealStatus_cases e with h | h
  · exact Or.inl h
  · exact Or.inr ⟨e, he2, h⟩

/-- C2 witness: a reply with an empty status yields a vocabulary value. -/
theorem claim_C2_amended_witness :
    ((Analyzer.generate_corporate_events [(default : Analyzer.RawEvent)] 1
        (fun _ => none)).headI).dealStatus ∈ Analyzer.dealStatusVocab ∨
      ∃ e ∈ [(default : Analyzer.RawEvent)],
        ((Analyzer.generate_corporate_events [(default : Analyzer.RawEvent)] 1
            (fun _ => none)).headI).dealStatus = Str.pyStrip ((e.deal_status).getD ("")) :=
  claim_C2_amended [(default : Analyzer.RawEvent)] 1 (fun _ => none) _ (by decide)

/-- C2 counterexample: a reply carrying `deal_status = "Pending"` is returned
with Deal Status `"Pending"`, which is outside the fixed vocabulary — the
claimed invariant fails for accepted replies that supply a non-vocabulary
status. -/
theorem claim_C2_cex :
    (Analyzer.generate_corporate_events
        [{ (default : Analyzer.RawEvent) with deal_status := some "Pending" }] 20
        (fun _ => none)).map (fun ev => ev.dealStatus) = ["Pending"] ∧
      ¬ ("Pending" ∈ Analyzer.dealStatusVocab) :=
  ⟨rfl, by decide⟩

/-- C3: when the reply's `deal_status` strips to empty, the Deal Status is
`"Completed"` if the (stripped) closed date is non-empty, else `"Unknown"`. -/
theorem claim_C3 (e : Analyzer.RawEvent)
    (h : Str.pyStrip ((e.deal_status).getD ("")) = "") :
    ((Analyzer.normalizeEvent e).closedDate ≠ "" →
      (Analyzer.normalizeEvent e).dealStatus = "Completed") ∧
    ((Analyzer.normalizeEvent e).closedDate = "" →
      (Analyzer.normalizeEvent e).dealStatus = "Unknown") := by
  constructor <;> intro hc <;>
    simp only [Analyzer.normalizeEvent] at hc ⊢ <;>
    simp [h, hc]

/-- C3 witness at two concrete replies: a closed date without a status gives
`"Completed"`; neither field gives `"Unknown"`. -/
theorem claim_C3_witness :
    (Analyzer.normalizeEvent
        { (default : Analyzer.RawEvent) with closed_date := some "Feb 28, 2022" }).dealStatus
        = "Completed" ∧
    (Analyzer.normalizeEvent (default : Analyzer.RawEvent)).dealStatus = "Unknown" :=
  ⟨(claim_C3 { (default : Analyzer.RawEvent) with closed_date := some "Feb 28, 2022" }
      (by rfl)).1 (by decide),
   (claim_C3 (default : Analyzer.RawEvent) (by rfl)).2 (by rfl)⟩

/-- C8 (amended): there is no runtime lookup of the free-text type label in a
role table (the 7-role table lives in the prompt text only): the counterparty
normalization copies the reply-supplied numeric `type_id` with default `0`
and keeps the stripped label with default `"Unknown"`; in particular a
counterparty whose reply says `type = "Licensing Partner"` with no numeric
`type_id` gets `type_id = 0` with its label preserved. -/
theorem claim_C8_amended (cp : Analyzer.RawCounterparty) :
    (Analyzer.normCounterparty cp).type_id = cp.type_id.getD 0 ∧
    (Analyzer.normCounterparty cp).type = Str.pyStrip (cp.type.getD ("Unknown")) ∧
    (Analyzer.normCounterparty
        { (default : Analyzer.RawCounterparty) with type := some "Licensing Partner" }).type_id
        = 0 ∧
    (Analyzer.normCounterparty
        { (default : Analyzer.RawCounterparty) with type := some "Licensing Partner" }).type
        = "Licensing Partner" :=
  ⟨rfl, rfl, rfl, rfl⟩

/-- C8 counterexample: the text `"Majority Investor"` is not mapped to
type_id 24 — with no numeric `type_id` in the reply it gets `0`, the label
kept verbatim. -/
theorem claim_C8_cex :
    (Analyzer.normCounterparty
        { (default : Analyzer.RawCounterparty) with type := some "Majority Investor" }).type_id
        = 0 ∧
    (Analyzer.normCounterparty
        { (default : Analyzer.RawCounterparty) with type := some "Majority Investor" }).type
        = "Majority Investor" ∧
    (Analyzer.normCounterparty
        { (default : Analyzer.RawCounterparty) with type := some "Majority Investor" }).type_id
        ≠ 24 :=
  ⟨rfl, rfl, by decide⟩

/-! ## Lemmas about the normalization helpers of app.py -/

/-- Bind on a successful `Except` computation. -/
theorem ok_bind {ε α β : Type} (v : α) (f : α → Except ε β) :
    (Except.ok v >>= f : Except ε β) = f v := rfl

/-- The role-renaming half of the loop body, on a dict entry. -/
theorem mgmtStepRole_dict (kvs : List (String × Py.PyVal)) :
    App.mgmtStepRole (.pyDict kvs) =
      .ok (.pyDict (if Py.dictHas kvs ("role") && ¬ Py.dictHas kvs ("position") then
        Py.dictSet (Py.dictRemove kvs ("role")) ("position") (Py.dictFind kvs ("role"))
      else kvs)) := by
  unfold App.mgmtStepRole App.pyHasItem
  by_cases hr : Py.dictHas kvs ("role") <;> by_cases hp : Py.dictHas kvs ("position") <;>
    simp [hr, hp, Bind.bind, Except.bind, Pure.pure, Except.pure]

/-- The status-defaulting half of the loop body, on a dict entry. -/
theorem mgmtStepStatus_dict (kvs : List (String × Py.PyVal)) :
    App.mgmtStepStatus (.pyDict kvs) =
      .ok (.pyDict (if ¬ Py.dictHas kvs ("status") then
        Py.dictSet kvs ("status") (.pyStr "Current") else kvs)) := by
  unfold App.mgmtStepStatus App.pyHasItem
  by_cases hs : Py.dictHas kvs ("status") <;>
    simp [hs, Bind.bind, Except.bind, Pure.pure, Except.pure]

/-- On a dict entry the loop body is exactly the pure transformation
`mgmtDict` and never raises. -/
theorem mgmtEntry_dict (kvs : List (String × Py.PyVal)) :
    App.mgmtEntry (.pyDict kvs) = .ok (.pyDict (App.mgmtDict kvs)) := by
  unfold App.mgmtEntry
  rw [mgmtStepRole_dict, ok_bind, mgmtStepStatus_dict]
  rfl

/-- The loop maps `mgmtDict` over a list of dict entries. -/
theorem mapM_mgmtEntry_dicts (ms : List (List (String × Py.PyVal))) :
    (ms.map Py.PyVal.pyDict).mapM App.mgmtEntry
      = .ok (ms.map (fun kvs => Py.PyVal.pyDict (App.mgmtDict kvs))) := by
  induction ms with
  | nil => rfl
  | cons kvs rest ih =>
    rw [List.map_cons, List.mapM_cons, mgmtEntry_dict, ok_bind, ih]
    rfl

/-- C9: on every management list of dict entries, `normalize_top_management`
applies the rename-and-default transformation entrywise (`role` becomes
`position` when `position` is absent; a missing `status` becomes
`"Current"`); in particular `[{"name":"Jane Doe","role":"CEO"}]`, given as a
native list or as that JSON string, normalizes exactly to
`[{"name":"Jane Doe","position":"CEO","status":"Current"}]`. -/
theorem claim_C9 :
    (∀ ms : List (List (String × Py.PyVal)),
      App.normalize_top_management (.pyList (ms.map Py.PyVal.pyDict)) =
        .pyList (ms.map (fun kvs => Py.PyVal.pyDict (App.mgmtDict kvs)))) ∧
    App.normalize_top_management
        (.pyList [.pyDict [(("name"), .pyStr "Jane Doe"), (("role"), .pyStr "CEO")]])
      = .pyList [.pyDict [(("name"), .pyStr "Jane Doe"), (("position"), .pyStr "CEO"),
          (("status"), .pyStr "Current")]] ∧
    App.normalize_top_management (.pyStr "[\x7b\"name\":\"Jane Doe\",\"role\":\"CEO\"\x7d]")
      = .pyList [.pyDict [(("name"), .pyStr "Jane Doe"), (("position"), .pyStr "CEO"),
          (("status"), .pyStr "Current")]] := by
  refine ⟨?_, rfl, rfl⟩
  intro ms
  rcases ms with _ | ⟨kvs, rest⟩
  · rfl
  · unfold App.normalize_top_management
    rw [if_neg (by simp [Py.pyTruthy])]
    rw [show App.tmTryBody (.pyList ((kvs :: rest).map Py.PyVal.pyDict))
          = (((kvs :: rest).map Py.PyVal.pyDict).mapM App.mgmtEntry >>=
              fun ms2 => pure (Py.PyVal.pyList ms2)) from rfl]
    rw [mapM_mgmtEntry_dicts, ok_bind]
    rfl

/-- A successful run of the `try` block always yields a Python list. -/
theorem tmTryBody_ok_list :
    ∀ (data v : Py.PyVal), App.tmTryBody data = .ok v → ∃ l, v = .pyList l := by
  have hlist : ∀ (xs : List Py.PyVal) (v : Py.PyVal),
      (xs.mapM App.mgmtEntry >>= fun ms2 => pure (Py.PyVal.pyList ms2) : Except Unit Py.PyVal)
          = .ok v → ∃ l, v = .pyList l := by
    intro xs v h
    rcases hm : xs.mapM App.mgmtEntry with e | ms2
    · rw [hm] at h
      exact Except.noConfusion h
    · rw [hm, ok_bind] at h
      cases h
      exact ⟨ms2, rfl⟩
  intro data v h
  rcases data with _ | b | n | s | xs | kvs
  case pyStr =>
    simp only [App.tmTryBody] at h
    rcases hL : Py.pyLoads s with _ | w
    · rw [hL] at h
      exact Except.noConfusion h
    · rw [hL] at h
      rcases w with _ | b | n | t | xs | kvs
      case pyList => exact hlist xs v h
      all_goals cases h; exact ⟨[], rfl⟩
  case pyList =>
    simp only [App.tmTryBody] at h
    exact hlist xs v h
  all_goals simp only [App.tmTryBody] at h; cases h; exact ⟨[], rfl⟩

/-- C5 (amended): `normalize_top_management` returns a list and never raises,
for every modelled input value; `normalize_corporate_events` returns a list
without raising on every string and on every falsy input, but raises
`TypeError` on every truthy non-string (`re.findall` rejects the native
list/dict, outside the `try`). -/
theorem claim_C5 :
    (∀ d : Py.PyVal, ∃ l, App.normalize_top_management d = .pyList l) ∧
    (∀ s : String, ∃ l, App.normalize_corporate_events (.pyStr s) = .ok (.pyList l)) ∧
    (∀ d : Py.PyVal, ¬ Py.pyTruthy d → App.normalize_corporate_events d = .ok (.pyList [])) ∧
    (∀ d : Py.PyVal, Py.pyTruthy d → ¬ Py.isPyStr d →
      App.normalize_corporate_events d = .error ()) := by
  refine ⟨?_, ?_, ?_, ?_⟩
  · intro d
    unfold App.normalize_top_management
    by_cases ht : Py.pyTruthy d
    · rw [if_neg (by simp [ht])]
      rcases hb : App.tmTryBody d with e | v
      · exact ⟨[], rfl⟩
      · obtain ⟨l, rfl⟩ := tmTryBody_ok_list d v hb
        exact ⟨l, rfl⟩
    · exact ⟨[], by rw [if_pos (by simp [ht])]⟩
  · intro s
    simp only [App.normalize_corporate_events]
    by_cases hs : s = ""
    · exact ⟨[], by rw [if_pos (by simp [Py.pyTruthy, hs])]⟩
    · rw [if_neg (by simp [Py.pyTruthy, hs])]
      rcases hL : Py.pyLoads s with _ | w
      · exact ⟨App.legacyEvents s, rfl⟩
      · rcases w with _ | b | n | t | xs2 | kvs2
        · exact ⟨App.legacyEvents s, rfl⟩
        · exact ⟨App.legacyEvents s, rfl⟩
        · exact ⟨App.legacyEvents s, rfl⟩
        · exact ⟨App.legacyEvents s, rfl⟩
        · exact ⟨xs2, rfl⟩
        · exact ⟨App.legacyEvents s, rfl⟩
  · intro d hd
    simp only [App.normalize_corporate_events]
    rw [if_pos hd]
  · intro d ht hs
    rcases d with _ | b | n | t | xs | kvs
    case pyStr => simp [Py.isPyStr] at hs
    all_goals
      simp only [App.normalize_corporate_events]
      rw [if_neg (by simp [ht])]

/-- C5 witness: an int input to the management normalizer still yields a
list; an arbitrary string yields a list; a falsy input yields `[]`; a
truthy native list raises. -/
theorem claim_C5_witness :
    (∃ l, App.normalize_top_management (.pyInt 5) = .pyList l) ∧
    (∃ l, App.normalize_corporate_events (.pyStr "hello") = .ok (.pyList l)) ∧
    App.normalize_corporate_events .pyNone = .ok (.pyList []) ∧
    App.normalize_corporate_events (.pyList [.pyInt 1]) = .error () :=
  ⟨claim_C5.1 (.pyInt 5), claim_C5.2.1 ("hello"),
   claim_C5.2.2.1 .pyNone (by decide), claim_C5.2.2.2 (.pyList [.pyInt 1]) (by decide) (by decide)⟩

/-- C5 counterexample: a native (non-empty) list of event dicts — a shape
the claim says is accepted — makes `normalize_corporate_events` raise
`TypeError` at `re.findall` instead of returning a list. -/
theorem claim_C5_cex :
    App.normalize_corporate_events
        (.pyList [.pyDict [(("description"), .pyStr "Acme buys Widget Corp")]]) = .error () := rfl

/-- C4 (amended): for a string decoding to a JSON array, the first
application returns the parsed list unchanged, and re-applying the function
to its own output is idempotent exactly when that list is empty — on a
non-empty list the second application raises `TypeError`, because the output
is a Python list while the function only accepts falsy values and strings
without raising. -/
theorem claim_C4_amended (x : String) (l : List Py.PyVal)
    (h : Py.pyLoads x = some (.pyList l)) :
    App.normalize_corporate_events (.pyStr x) = .ok (.pyList l) ∧
    (((App.normalize_corporate_events (.pyStr x)).bind App.normalize_corporate_events =
        App.normalize_corporate_events (.pyStr x)) ↔ l = []) := by
  have hx : x ≠ "" := by
    intro he
    rw [he, show Py.pyLoads "" = none from rfl] at h
    exact Option.noConfusion h
  have h1 : App.normalize_corporate_events (.pyStr x) = .ok (.pyList l) := by
    simp only [App.normalize_corporate_events]
    rw [if_neg (by simp [Py.pyTruthy, hx]), h]
  refine ⟨h1, ?_⟩
  rw [h1]
  rcases l with _ | ⟨a, as⟩
  · simp [show (Except.ok (Py.PyVal.pyList ([] : List Py.PyVal))).bind
        App.normalize_corporate_events = .ok (.pyList []) from rfl]
  · constructor
    · intro hc
      rw [show (Except.ok (Py.PyVal.pyList (a :: as))).bind App.normalize_corporate_events
            = App.normalize_corporate_events (.pyList (a :: as)) from rfl,
          show App.normalize_corporate_events (.pyList (a :: as)) = .error () from rfl] at hc
      exact Except.noConfusion hc
    · intro hc
      exact absurd hc (by simp)

/-- C4 witness at the empty array: both applications return `[]`. -/
theorem claim_C4_amended_witness :
    App.normalize_corporate_events (.pyStr "[]") = .ok (.pyList []) ∧
    (((App.normalize_corporate_events (.pyStr "[]")).bind App.normalize_corporate_events =
        App.normalize_corporate_events (.pyStr "[]")) ↔ ([] : List Py.PyVal) = []) :=
  claim_C4_amended ("[]") [] (by rfl)

/-- C4 counterexample: on the well-formed one-event array string
`[{"description":"Acme buys Widget"}]` the composition differs from the
single application (the second application raises `TypeError`). -/
theorem claim_C4_cex :
    ¬ ((App.normalize_corporate_events
          (.pyStr "[\x7b\"description\":\"Acme buys Widget\"\x7d]")).bind
          App.normalize_corporate_events =
        App.normalize_corporate_events
          (.pyStr "[\x7b\"description\":\"Acme buys Widget\"\x7d]")) := by
  intro h
  rw [show App.normalize_corporate_events
        (.pyStr "[\x7b\"description\":\"Acme buys Widget\"\x7d]")
        = .ok (.pyList [.pyDict [(("description"), .pyStr "Acme buys Widget")]]) from rfl,
      show (Except.ok (Py.PyVal.pyList [.pyDict [(("description"),
          Py.PyVal.pyStr "Acme buys Widget")]])).bind App.normalize_corporate_events
        = .error () from rfl] at h
  exact Except.noConfusion h
/-- FreshExt l0 l: l extends l0 by appends only, each appended individual's
lower-cased name absent from everything before it. -/
inductive FreshExt : List Analyzer.Individual → List Analyzer.Individual → Prop
  | refl (l : List Analyzer.Individual) : FreshExt l l
  | snoc {l0 l : List Analyzer.Individual} (i : Analyzer.Individual)
      (h1 : FreshExt l0 l)
      (h2 : ∀ j ∈ l, Str.pyLower j.name ≠ Str.pyLower i.name) :
      FreshExt l0 (l ++ [i])

theorem freshExt_trans {a b c : List Analyzer.Individual}
    (h1 : FreshExt a b) (h2 : FreshExt b c) : FreshExt a c := by
  induction h2 with
  | refl => exact h1
  | snoc i hbc hfresh ih => exact FreshExt.snoc i ih hfresh

theorem addIndividuals_fresh (news : List Analyzer.RawIndividual) :
    ∀ cur, FreshExt cur (Analyzer.addIndividuals cur news) := by
  induction news with
  | nil => intro cur; exact FreshExt.refl cur
  | cons n rest ih =>
    intro cur
    by_cases hc : (n.name.getD ("") ≠ "" ∧
        ¬ cur.any (fun i => Str.pyLower i.name = Str.pyLower (n.name.getD (""))))
    · have h1 : Analyzer.addIndividuals cur (n :: rest)
          = Analyzer.addIndividuals
            (cur ++ [(⟨n.name.getD (""), n.title.getD (""), n.linkedin_url.getD ("")⟩ :
              Analyzer.Individual)]) rest := by
        simp only [Analyzer.addIndividuals, List.foldl_cons, if_pos hc]
      rw [h1]
      refine freshExt_trans (FreshExt.snoc _ (FreshExt.refl cur) ?_) (ih _)
      intro j hj heq
      exact hc.2 (List.any_eq_true.mpr ⟨j, hj, by simp [heq]⟩)
    · have h1 : Analyzer.addIndividuals cur (n :: rest) = Analyzer.addIndividuals cur rest := by
        simp only [Analyzer.addIndividuals, List.foldl_cons, if_neg hc]
      rw [h1]
      exact ih cur

/-- The composable invariant one merge step keeps on each counterparty. -/
def MergePreserves (cp cp' : Analyzer.Counterparty) : Prop :=
  (cp'.press_release_url = cp.press_release_url ∨ cp.press_release_url = "") ∧
  (cp'.company_linkedin_url = cp.company_linkedin_url ∨ cp.company_linkedin_url = "") ∧
  FreshExt cp.individuals cp'.individuals

theorem mergePreserves_refl (cp : Analyzer.Counterparty) : MergePreserves cp cp :=
  ⟨Or.inl rfl, Or.inl rfl, FreshExt.refl _⟩

theorem mergePreserves_trans {a b c : Analyzer.Counterparty}
    (h1 : MergePreserves a b) (h2 : MergePreserves b c) : MergePreserves a c := by
  obtain ⟨p1, l1, f1⟩ := h1
  obtain ⟨p2, l2, f2⟩ := h2
  refine ⟨?_, ?_, freshExt_trans f1 f2⟩
  · rcases p1 with p1 | p1
    · rcases p2 with p2 | p2
      · exact Or.inl (p2.trans p1)
      · exact Or.inr (p1 ▸ p2)
    · exact Or.inr p1
  · rcases l1 with l1 | l1
    · rcases l2 with l2 | l2
      · exact Or.inl (l2.trans l1)
      · exact Or.inr (l1 ▸ l2)
    · exact Or.inr l1

theorem applyEnrich_preserves (e : Analyzer.EnrichCP) (cp : Analyzer.Counterparty) :
    MergePreserves cp (Analyzer.applyEnrich e cp) := by
  unfold MergePreserves
  simp only [Analyzer.applyEnrich]
  split_ifs with h1 h2 h3
  · exact ⟨Or.inr h1.2, Or.inr h2.2, addIndividuals_fresh _ _⟩
  · exact ⟨Or.inr h1.2, Or.inl rfl, addIndividuals_fresh _ _⟩
  · exact ⟨Or.inl rfl, Or.inr h3.2, addIndividuals_fresh _ _⟩
  · exact ⟨Or.inl rfl, Or.inl rfl, addIndividuals_fresh _ _⟩

theorem mergeEnrichOne_length (e : Analyzer.EnrichCP) :
    ∀ cps : List Analyzer.Counterparty, (Analyzer.mergeEnrichOne e cps).length = cps.length := by
  intro cps
  induction cps with
  | nil => rfl
  | cons c rest ih =>
    simp only [Analyzer.mergeEnrichOne]
    split
    · simp
    · simp [ih]

theorem mergeEnrichOne_pointwise (e : Analyzer.EnrichCP) :
    ∀ (cps : List Analyzer.Counterparty) (j : Nat) (cp cp' : Analyzer.Counterparty),
      cps.get? j = some cp → (Analyzer.mergeEnrichOne e cps).get? j = some cp' →
      MergePreserves cp cp' := by
  intro cps
  induction cps with
  | nil =>
    intro j cp cp' h _
    simp at h
  | cons c rest ih =>
    intro j cp cp' h1 h2
    simp only [Analyzer.mergeEnrichOne] at h2
    by_cases hm : Analyzer.cpMatch (Str.pyLower (e.company.getD (""))) c
    · rw [if_pos hm] at h2
      rcases j with _ | j
      · simp only [List.get?_cons_zero, Option.some.injEq] at h1 h2
        rw [← h1, ← h2]
        exact applyEnrich_preserves e c
      · simp only [List.get?_cons_succ] at h1 h2
        rw [h1, Option.some.injEq] at h2
        rw [← h2]
        exact mergePreserves_refl cp
    · rw [if_neg hm] at h2
      rcases j with _ | j
      · simp only [List.get?_cons_zero, Option.some.injEq] at h1 h2
        rw [← h1, ← h2]
        exact mergePreserves_refl c
      · simp only [List.get?_cons_succ] at h1 h2
        exact ih j cp cp' h1 h2

theorem foldMerge_pointwise :
    ∀ (data : List Analyzer.EnrichCP) (cps : List Analyzer.Counterparty) (j : Nat)
      (cp cp' : Analyzer.Counterparty),
      cps.get? j = some cp →
      ((data.foldl (fun cps e => Analyzer.mergeEnrichOne e cps) cps).get? j = some cp') →
      MergePreserves cp cp' := by
  intro data
  induction data with
  | nil =>
    intro cps j cp cp' h1 h2
    simp only [List.foldl_nil] at h2
    rw [h1, Option.some.injEq] at h2
    rw [← h2]
    exact mergePreserves_refl cp
  | cons e rest ih =>
    intro cps j cp cp' h1 h2
    rw [List.foldl_cons] at h2
    have hlen : j < cps.length := by
      rcases List.get?_eq_some.mp h1 with ⟨hw, -⟩
      exact hw
    have hlen2 : j < (Analyzer.mergeEnrichOne e cps).length := by
      rw [mergeEnrichOne_length]
      exact hlen
    obtain ⟨mid, hmid⟩ : ∃ mid, (Analyzer.mergeEnrichOne e cps).get? j = some mid :=
      ⟨_, List.get?_eq_get hlen2⟩
    exact mergePreserves_trans (mergeEnrichOne_pointwise e cps j cp mid h1 hmid)
      (ih (Analyzer.mergeEnrichOne e cps) j mid cp' hmid h2)

theorem enrichEvent_pointwise (ev : Analyzer.NormEvent)
    (reply : Option (List Analyzer.EnrichCP)) (j : Nat)
    (cp cp' : Analyzer.Counterparty)
    (h1 : ev.counterparties.get? j = some cp)
    (h2 : (Analyzer.enrichEvent ev reply).counterparties.get? j = some cp') :
    MergePreserves cp cp' := by
  unfold Analyzer.enrichEvent at h2
  have hsame : ∀ (hx : ev.counterparties.get? j = some cp'), MergePreserves cp cp' := by
    intro hx
    rw [h1, Option.some.injEq] at hx
    rw [← hx]
    exact mergePreserves_refl cp
  split at h2
  · exact hsame h2
  · split at h2
    · exact hsame h2
    · split at h2
      · exact hsame h2
      · exact foldMerge_pointwise _ ev.counterparties j cp cp' h1 h2

theorem enrichFrom_get? (oracle : Nat → Option (List Analyzer.EnrichCP)) :
    ∀ (evs : List Analyzer.NormEvent) (k i : Nat),
      (Analyzer.enrichFrom oracle k evs).get? i =
        (evs.get? i).map (fun ev => Analyzer.enrichEvent ev (oracle (k + i))) := by
  intro evs
  induction evs with
  | nil =>
    intro k i
    simp [Analyzer.enrichFrom]
  | cons e rest ih =>
    intro k i
    rcases i with _ | i
    · simp [Analyzer.enrichFrom]
    · simp only [Analyzer.enrichFrom, List.get?_cons_succ]
      rw [ih (k + 1) i, show k + (i + 1) = (k + 1) + i from by omega]

/-- C6: the enrichment merge preserves, for every event and every
counterparty position, the two invariants: a non-empty press_release_url
(and company_linkedin_url) is never overwritten, and the individuals list is
only extended by appends whose lower-cased name is not already present at
the time of the append. -/
theorem claim_C6 (evs : List Analyzer.NormEvent)
    (oracle : Nat → Option (List Analyzer.EnrichCP)) (i j : Nat)
    (ev ev' : Analyzer.NormEvent) (cp cp' : Analyzer.Counterparty)
    (h1 : evs.get? i = some ev)
    (h2 : (Analyzer.enrich_counterparties_with_individuals evs oracle).get? i = some ev')
    (h3 : ev.counterparties.get? j = some cp)
    (h4 : ev'.counterparties.get? j = some cp') :
    (cp.press_release_url ≠ "" → cp'.press_release_url = cp.press_release_url) ∧
    (cp.company_linkedin_url ≠ "" → cp'.company_linkedin_url = cp.company_linkedin_url) ∧
    FreshExt cp.individuals cp'.individuals := by
  unfold Analyzer.enrich_counterparties_with_individuals at h2
  rw [enrichFrom_get? oracle evs 0 i, h1, Option.map_some'] at h2
  rw [Option.some.injEq] at h2
  rw [← h2] at h4
  obtain ⟨hp, hl, hf⟩ := enrichEvent_pointwise ev (oracle (0 + i)) j cp cp' h3 h4
  refine ⟨?_, ?_, hf⟩
  · intro hne
    rcases hp with hp | hp
    · exact hp
    · exact absurd hp hne
  · intro hne
    rcases hl with hl | hl
    · exact hl
    · exact absurd hl hne

/-- Concrete inputs for the C6 witness: one event whose counterparty already
has a press-release URL and one individual, and an enrichment reply that
tries to overwrite the URL and re-add the same individual under a different
case. -/
def witCp : Analyzer.Counterparty :=
  ⟨"Acme", 18, "Acquirer", "", "", "http://pr.example/a", [⟨"Jane Doe", "CEO", ""⟩]⟩

/-- The event list of the C6 witness. -/
def witEvs : List Analyzer.NormEvent :=
  [⟨"", "", "", "", "", "", "", "", "", "", [witCp], []⟩]

/-- The reply oracle of the C6 witness. -/
def witOrc : Nat → Option (List Analyzer.EnrichCP) := fun _ =>
  some [⟨some "Acme", some "http://other.example", some "http://li.example",
    some [⟨some "JANE DOE", some "Chief", none⟩, ⟨some "John Roe", some "CFO", none⟩]⟩]

/-- The counterparty produced by the enrichment pass on the witness inputs. -/
def witCpOut : Analyzer.Counterparty :=
  (((Analyzer.enrich_counterparties_with_individuals witEvs witOrc).headI).counterparties).headI

/-- C6 witness: the enrichment reply tries to overwrite a non-empty
press-release URL and to re-add "Jane Doe" as "JANE DOE"; both invariants
hold on the result. -/
theorem claim_C6_witness :
    (witCp.press_release_url ≠ "" → witCpOut.press_release_url = witCp.press_release_url) ∧
    (witCp.company_linkedin_url ≠ "" →
      witCpOut.company_linkedin_url = witCp.company_linkedin_url) ∧
    FreshExt witCp.individuals witCpOut.individuals :=
  claim_C6 witEvs witOrc 0 0 witEvs.headI
    ((Analyzer.enrich_counterparties_with_individuals witEvs witOrc).headI) witCp witCpOut
    (by rfl) (by rfl) (by rfl) (by rfl)

/-- The fuzzy-match predicate as the specification words it: one lowered name
a substring of the other, or a token of length > 3 shared between the two
token sets. -/
def cpNamesMatchSpec (a b : String) : Bool :=
  Str.strHasSub a b || Str.strHasSub b a ||
    (Str.pySplitWs a).any (fun w => decide (w.length > 3) && (Str.pySplitWs b).contains w)

/-- C7 (amended): an enrichment record is merged into exactly the first
counterparty satisfying the code's predicate `cpMatch` — lowered substring
containment either way, or some whitespace token of the enrichment name
longer than 3 characters occurring as a substring of the counterparty name
(not a shared-token test): if no counterparty matches, the list is
unchanged; otherwise the first matching counterparty alone receives the
update. -/
theorem claim_C7_amended (e : Analyzer.EnrichCP) (cps : List Analyzer.Counterparty) :
    ((∀ cp ∈ cps, Analyzer.cpMatch (Str.pyLower (e.company.getD (""))) cp = false) →
      Analyzer.mergeEnrichOne e cps = cps) ∧
    (∀ (cps1 : List Analyzer.Counterparty) (cp : Analyzer.Counterparty)
        (cps2 : List Analyzer.Counterparty),
      cps = cps1 ++ cp :: cps2 →
      (∀ c ∈ cps1, Analyzer.cpMatch (Str.pyLower (e.company.getD (""))) c = false) →
      Analyzer.cpMatch (Str.pyLower (e.company.getD (""))) cp = true →
      Analyzer.mergeEnrichOne e cps = cps1 ++ Analyzer.applyEnrich e cp :: cps2) := by
  constructor
  · intro hall
    induction cps with
    | nil => rfl
    | cons c rest ih =>
      simp only [Analyzer.mergeEnrichOne]
      rw [if_neg (by simp [hall c (List.mem_cons_self c rest)])]
      rw [ih (fun cp hcp => hall cp (List.mem_cons_of_mem c hcp))]
  · intro cps1
    induction cps1 generalizing cps with
    | nil =>
      intro cp cps2 hsplit hpre hmatch
      rw [hsplit]
      simp only [List.nil_append, Analyzer.mergeEnrichOne]
      rw [if_pos (by simp [hmatch])]
    | cons c rest1 ih =>
      intro cp cps2 hsplit hpre hmatch
      rw [hsplit]
      simp only [List.cons_append, Analyzer.mergeEnrichOne]
      rw [if_neg (by simp [hpre c (List.mem_cons_self c rest1)])]
      exact congrArg (fun l => c :: l)
        (ih (rest1 ++ cp :: cps2) cp cps2 rfl
          (fun x hx => hpre x (List.mem_cons_of_mem c hx)) hmatch)

/-- C7 witness: with a non-matching first counterparty and two matching
ones, only the first matching counterparty is updated. -/
theorem claim_C7_witness :
    (let e0 : Analyzer.EnrichCP :=
      ⟨some "Acme Widget", some "http://pr.example/deal", none, none⟩
     let cpA : Analyzer.Counterparty := ⟨"Globex", 19, "Seller", "", "", "", []⟩
     let cpB : Analyzer.Counterparty := ⟨"Widgets Inc", 17, "Target", "", "", "", []⟩
     let cpC : Analyzer.Counterparty := ⟨"Acme Widget", 18, "Acquirer", "", "", "", []⟩
     Analyzer.mergeEnrichOne e0 [cpA, cpB, cpC]
        = [cpA, Analyzer.applyEnrich e0 cpB, cpC]) := by
  exact (claim_C7_amended _ _).2 [⟨"Globex", 19, "Seller", "", "", "", []⟩]
    ⟨"Widgets Inc", 17, "Target", "", "", "", []⟩ [⟨"Acme Widget", 18, "Acquirer", "", "", "", []⟩]
    rfl (by decide) (by decide)

/-- C7 counterexample: the enrichment name "Acme Widget" and counterparty
"Widgets Inc" share no token and neither contains the other, so the
claim's predicate says no merge; the code still merges (the token "widget"
is a substring of "widgets inc") and fills the press-release URL. -/
theorem claim_C7_cex :
    ((Analyzer.mergeEnrichOne
        ⟨some "Acme Widget", some "http://pr.example/deal", none, none⟩
        [⟨"Widgets Inc", 17, "Target", "", "", "", []⟩]).map
      (fun cp => cp.press_release_url)) = ["http://pr.example/deal"] ∧
    cpNamesMatchSpec ("acme widget") ("widgets inc") = false :=
  ⟨rfl, by decide⟩
